import Mathlib

/-!
# Verification of the gtw word game core

Shallow embedding of the gtw repository's guess-evaluation engine
(`lib/engine.go`) and of the gmobot candidate filters, together with
proofs relating them to the specification's reference algorithms.

Words are modelled as lists of natural numbers (the byte values of the
Go strings; all game words are ASCII).  Go's `map[rune]int` is modelled
as a total function `Nat → Nat` where a missing key reads as 0, which is
exactly how the Go code treats lookups (`count, exists := m[k]` with
`count = 0` when `!exists`, and every positivity test is guarded by
`exists && count > 0`).
-/

namespace Gtw

/-- `'+'`: this letter is correct and in position (engine.go). -/
def LETTER_CORRECT : Nat := 43

/-- `'*'`: this letter is in the word, but out of position (engine.go). -/
def LETTER_IN_WORD : Nat := 42

/-- `'#'`: this letter is not in the word at any position (engine.go). -/
def LETTER_WRONG : Nat := 35

/-- `0`: rune value that can't ever occur in a guess or a goal (engine.go). -/
def LETTER_INVALID : Nat := 0

/-- Go `map[rune]int`: missing keys read as 0. -/
abbrev CountMap := Nat → Nat

/-- First loop of `GtwEngine.Score`: walk the (guess, goal) byte pairs in
order; on an exact match zero out the guess slot, emit `'+'` and bump
`nCorrect`; otherwise keep the guess byte, emit the initial `'#'`, and
increment `unsolvedLetterCounts[goal[i]]`.  Returns the mutated `aGuess`
array, the signature after pass 1, the count map, and `nCorrect`. -/
def scorePass1 : List (Nat × Nat) → CountMap → Nat → List Nat × List Nat × CountMap × Nat
  | [], m, n => ([], [], m, n)
  | (g, t) :: rest, m, n =>
    if g = t then
      let r := scorePass1 rest m (n + 1)
      (0 :: r.1, LETTER_CORRECT :: r.2.1, r.2.2)
    else
      let r := scorePass1 rest (fun x => if x = t then m t + 1 else m x) n
      (g :: r.1, LETTER_WRONG :: r.2.1, r.2.2)

/-- Second loop of `GtwEngine.Score`: walk the mutated `aGuess` alongside the
pass-1 signature; at a slot whose guess byte was not zeroed out, if the
unsolved-letter count for that byte is positive, decrement it and overwrite
the signature slot with `'*'`. -/
def scorePass2 : List Nat → List Nat → CountMap → List Nat
  | g :: gs, s :: ss, m =>
    if g ≠ 0 then
      if m g > 0 then LETTER_IN_WORD :: scorePass2 gs ss (fun x => if x = g then m g - 1 else m x)
      else s :: scorePass2 gs ss m
    else s :: scorePass2 gs ss m
  | _, _, _ => []

/-- `GtwEngine.Score` from `lib/engine.go`.  The local arrays
`aGuess, aGoal, signature` have fixed size 5 and are zero-initialised; the
copying loop runs over the guess's indices, so slots past the guess's length
stay 0 in both arrays (and hence always compare equal in pass 1).  A guess
longer than 5 bytes, or longer than the goal, makes the Go code panic with an
index-out-of-range; that is modelled as `none`.  No length validation of any
other kind is performed by the source. -/
def Score (goal guess : List Nat) : Option (List Nat × Nat) :=
  if 5 < guess.length ∨ goal.length < guess.length then none
  else
    let aGuess := guess ++ List.replicate (5 - guess.length) 0
    let aGoal := goal.take guess.length ++ List.replicate (5 - guess.length) 0
    let r := scorePass1 (aGuess.zip aGoal) (fun _ => 0) 0
    some (scorePass2 r.1 r.2.1 r.2.2.1, r.2.2.2)

/-- Byte values of an ASCII string, for readable concrete test inputs. -/
def strBytes (s : String) : List Nat := s.data.map Char.toNat

example : Score (strBytes "taken") (strBytes "tater") = some (strBytes "++#+#", 3) := by decide
example : Score (strBytes "cross") (strBytes "brush") = some (strBytes "#+#+#", 2) := by decide
example : Score (strBytes "blind") (strBytes "dnzlb") = some (strBytes "**#**", 0) := by decide
example : Score (strBytes "dlnib") (strBytes "dnzlb") = some (strBytes "+*#*+", 2) := by decide
example : Score (strBytes "blind") (strBytes "") = some (strBytes "+++++", 5) := by decide
example : Score (strBytes "blind") (strBytes "ab") = some (strBytes "#*+++", 3) := by decide

/-! ## The specification's reference evaluation algorithm (§4.1)

The definitions in this subsection are written from the spec's words, to be
compared with the `Score` embedding above: mark exact matches `Correct`,
build the multiset of remaining unmatched goal letters, then walk the
non-`Correct` positions marking `Present` while the multiset still holds a
positive count for the guess letter, `Absent` otherwise. -/

/-- The spec's three letter outcome tags (§3). -/
inductive Outcome
  | correct
  | present
  | absent
  deriving DecidableEq, Repr

/-- Wire representation of an outcome (§6): `{+, *, #}` for
`{Correct, Present, Absent}`. -/
def encodeOutcome : Outcome → Nat
  | .correct => LETTER_CORRECT
  | .present => LETTER_IN_WORD
  | .absent => LETTER_WRONG

/-- Multiset of remaining unmatched goal letters (§4.1 step 2): for each
letter value, the number of (guess, goal) positions that are not exact
matches and whose goal letter is that value. -/
def unmatchedCounts (pairs : List (Nat × Nat)) : CountMap :=
  fun x => pairs.countP fun p => !(p.1 == p.2) && p.2 == x

/-- Pass 2 of the spec's algorithm (§4.1 step 3): positions already marked
`Correct` stay `Correct`; otherwise mark `Present` and decrement while the
multiset holds a positive count for the guess letter, else `Absent`.
Input pairs are (is marked Correct, guess letter). -/
def specPass2 : List (Bool × Nat) → CountMap → List Outcome
  | [], _ => []
  | (isCorrect, g) :: rest, m =>
    if isCorrect then .correct :: specPass2 rest m
    else if m g > 0 then .present :: specPass2 rest (fun x => if x = g then m g - 1 else m x)
    else .absent :: specPass2 rest m

/-- The spec's reference evaluator (§4.1): signature of outcomes plus the
count of exact matches. -/
def specScore (goal guess : List Nat) : List Outcome × Nat :=
  let pairs := guess.zip goal
  (specPass2 (pairs.map fun p => (p.1 == p.2, p.1)) (unmatchedCounts pairs),
   pairs.countP fun p => p.1 == p.2)

/-! ## Characterisation of the two passes of `Score` -/

theorem scorePass1_guess (ps : List (Nat × Nat)) (m : CountMap) (n : Nat) :
    (scorePass1 ps m n).1 = ps.map fun p => if p.1 = p.2 then 0 else p.1 := by
  induction ps generalizing m n with
  | nil => rfl
  | cons p rest ih =>
    obtain ⟨g, t⟩ := p
    by_cases h : g = t <;> simp [scorePass1, h, ih]

theorem scorePass1_sig (ps : List (Nat × Nat)) (m : CountMap) (n : Nat) :
    (scorePass1 ps m n).2.1
      = ps.map fun p => if p.1 = p.2 then LETTER_CORRECT else LETTER_WRONG := by
  induction ps generalizing m n with
  | nil => rfl
  | cons p rest ih =>
    obtain ⟨g, t⟩ := p
    by_cases h : g = t <;> simp [scorePass1, h, ih]

theorem scorePass1_counts (ps : List (Nat × Nat)) (m : CountMap) (n : Nat) :
    (scorePass1 ps m n).2.2.1 = fun x => m x + unmatchedCounts ps x := by
  induction ps generalizing m n with
  | nil => funext x; simp [scorePass1, unmatchedCounts]
  | cons p rest ih =>
    obtain ⟨g, t⟩ := p
    by_cases h : g = t
    · funext x
      simp [scorePass1, h, ih, unmatchedCounts, List.countP_cons]
    · funext x
      simp only [scorePass1, if_neg h, ih]
      by_cases hx : x = t <;>
        simp [unmatchedCounts, List.countP_cons, hx, h] <;> omega

theorem scorePass1_ncorrect (ps : List (Nat × Nat)) (m : CountMap) (n : Nat) :
    (scorePass1 ps m n).2.2.2 = n + ps.countP fun p => p.1 == p.2 := by
  induction ps generalizing m n with
  | nil => simp [scorePass1]
  | cons p rest ih =>
    obtain ⟨g, t⟩ := p
    by_cases h : g = t <;> simp [scorePass1, h, ih, List.countP_cons] <;> omega

/-- Pass 2 of the code agrees with pass 2 of the spec, provided no guess
letter is the rune 0 that the code uses as its "already matched" sentinel
(`LETTER_INVALID`, which engine.go documents as impossible in a guess). -/
theorem scorePass2_eq_spec (ps : List (Nat × Nat)) (m : CountMap)
    (h : ∀ p ∈ ps, p.1 ≠ 0) :
    scorePass2 (ps.map fun p => if p.1 = p.2 then 0 else p.1)
        (ps.map fun p => if p.1 = p.2 then LETTER_CORRECT else LETTER_WRONG) m
      = (specPass2 (ps.map fun p => (p.1 == p.2, p.1)) m).map encodeOutcome := by
  induction ps generalizing m with
  | nil => rfl
  | cons p rest ih =>
    obtain ⟨g, t⟩ := p
    have hg : g ≠ 0 := h (g, t) (List.mem_cons_self _ _)
    have hrest : ∀ p ∈ rest, p.1 ≠ 0 := fun p hp => h p (List.mem_cons_of_mem _ hp)
    by_cases hgt : g = t
    · simp [scorePass2, specPass2, hgt, encodeOutcome, ih _ hrest]
    · by_cases hm : m g > 0
      · simp [scorePass2, specPass2, hgt, hg, hm, encodeOutcome, ih _ hrest]
      · simp [scorePass2, specPass2, hgt, hg, hm, encodeOutcome, ih _ hrest]

/-- `Score` on equal-length-5 words, unfolded to the two passes on the
zipped letters: the padding is empty and the `take` is the whole goal. -/
theorem score_eq_passes (goal guess : List Nat)
    (hgoal : goal.length = 5) (hguess : guess.length = 5) :
    Score goal guess
      = some (scorePass2 (scorePass1 (guess.zip goal) (fun _ => 0) 0).1
                (scorePass1 (guess.zip goal) (fun _ => 0) 0).2.1
                (scorePass1 (guess.zip goal) (fun _ => 0) 0).2.2.1,
              (scorePass1 (guess.zip goal) (fun _ => 0) 0).2.2.2) := by
  have hcond : ¬(5 < guess.length ∨ goal.length < guess.length) := by omega
  have htake : goal.take 5 = goal := by
    rw [← hgoal]; exact List.take_length goal
  simp [Score, hcond, htake, hguess]
  omega

/-- The bridge between the code's `Score` and the spec's reference
algorithm, shared by the theorems below. -/
theorem score_eq_specScore (goal guess : List Nat)
    (hgoal : goal.length = 5) (hguess : guess.length = 5)
    (hz : ∀ c ∈ guess, c ≠ 0) :
    Score goal guess
      = some ((specScore goal guess).1.map encodeOutcome, (specScore goal guess).2) := by
  rw [score_eq_passes goal guess hgoal hguess]
  rw [scorePass1_guess, scorePass1_sig, scorePass1_counts, scorePass1_ncorrect]
  have hp : ∀ p ∈ guess.zip goal, (p : Nat × Nat).1 ≠ 0 := by
    intro p hmem
    obtain ⟨g, t⟩ := p
    exact hz g (List.of_mem_zip hmem).1
  have hm : (fun x => (fun _ => (0 : Nat)) x + unmatchedCounts (guess.zip goal) x)
      = unmatchedCounts (guess.zip goal) := by
    funext x; simp
  rw [hm, scorePass2_eq_spec _ _ hp]
  simp [specScore]

/-- C1: for every goal word and guess word of length 5, `Score` returns
exactly the signature (in the `{+,*,#}` wire encoding) and correct-count
produced by the spec's reference two-pass algorithm: exact matches are
marked `Correct` and their goal letters removed from play, a multiset of the
remaining unmatched goal letters is built, and each non-`Correct` position
is marked `Present` (decrementing the multiset) exactly when the multiset
still holds a positive count for its guess letter, `Absent` otherwise; no
goal letter occurrence is consumed twice.  The guess's letters are drawn
from the game alphabet, hence none of them is the rune 0 that engine.go
reserves as `LETTER_INVALID`. -/
theorem score_matches_spec_algorithm (goal guess : List Nat)
    (hgoal : goal.length = 5) (hguess : guess.length = 5)
    (hz : ∀ c ∈ guess, c ≠ 0) :
    Score goal guess
      = some ((specScore goal guess).1.map encodeOutcome, (specScore goal guess).2) :=
  score_eq_specScore goal guess hgoal hguess hz

/-- Witness for C1 at the spec's own duplicate-letter example, goal "taken"
and guess "tater". -/
theorem score_matches_spec_algorithm_witness :
    Score (strBytes "taken") (strBytes "tater")
      = some ((specScore (strBytes "taken") (strBytes "tater")).1.map encodeOutcome,
              (specScore (strBytes "taken") (strBytes "tater")).2) :=
  score_matches_spec_algorithm (strBytes "taken") (strBytes "tater")
    (by decide) (by decide) (by decide)

/-! ## The per-letter multiplicity invariant (§3) -/

theorem specPass2_marks_bound (ps : List (Nat × Nat)) (m : CountMap) (ℓ : Nat) :
    ((ps.map Prod.fst).zip
        ((specPass2 (ps.map fun p => (p.1 == p.2, p.1)) m).map encodeOutcome)).countP
        (fun q => q.1 == ℓ && (q.2 == LETTER_CORRECT || q.2 == LETTER_IN_WORD))
      ≤ (ps.countP fun p => p.1 == p.2 && p.2 == ℓ) + m ℓ := by
  induction ps generalizing m with
  | nil => simp [specPass2]
  | cons p rest ih =>
    obtain ⟨g, t⟩ := p
    by_cases hgt : g = t
    · subst hgt
      have h := ih m
      by_cases hℓ : g = ℓ
      · subst hℓ
        simp [specPass2, encodeOutcome, LETTER_CORRECT, LETTER_IN_WORD, LETTER_WRONG,
          List.countP_cons] at h ⊢
        omega
      · simp [specPass2, encodeOutcome, LETTER_CORRECT, LETTER_IN_WORD, LETTER_WRONG,
          List.countP_cons, hℓ] at h ⊢
        omega
    · by_cases hm : m g > 0
      · have h := ih (fun x => if x = g then m g - 1 else m x)
        by_cases hℓ : g = ℓ
        · subst hℓ
          simp only [if_pos rfl] at h
          simp [specPass2, encodeOutcome, LETTER_CORRECT, LETTER_IN_WORD, LETTER_WRONG,
            List.countP_cons, hgt, hm] at h ⊢
          omega
        · have hne : ¬(ℓ = g) := fun hx => hℓ hx.symm
          simp only [if_neg hne] at h
          simp [specPass2, encodeOutcome, LETTER_CORRECT, LETTER_IN_WORD, LETTER_WRONG,
            List.countP_cons, hgt, hm, hℓ] at h ⊢
          omega
      · have h := ih m
        simp [specPass2, encodeOutcome, LETTER_CORRECT, LETTER_IN_WORD, LETTER_WRONG,
          List.countP_cons, hgt, hm] at h ⊢
        omega

theorem countP_matched_add_unmatched (ps : List (Nat × Nat)) (ℓ : Nat) :
    (ps.countP fun p => p.1 == p.2 && p.2 == ℓ) + unmatchedCounts ps ℓ
      = ps.countP fun p => p.2 == ℓ := by
  induction ps with
  | nil => simp [unmatchedCounts]
  | cons p rest ih =>
    obtain ⟨g, t⟩ := p
    simp only [unmatchedCounts, List.countP_cons] at ih ⊢
    by_cases hgt : g = t
    · subst hgt
      by_cases ht : g = ℓ
      · subst ht
        simp
        omega
      · simp [ht]
        omega
    · by_cases ht : t = ℓ
      · subst ht
        simp [hgt]
        omega
      · simp [hgt, ht]
        omega

/-- C3: in the result of a single `Score` evaluation of length-5 words, for
every letter value ℓ the number of guess positions holding ℓ that are marked
`Correct` (`'+'`) or `Present` (`'*'`) never exceeds the number of
occurrences of ℓ in the goal word.  Guess letters are game-alphabet letters,
hence not the rune 0 sentinel. -/
theorem score_letter_marks_bound (goal guess : List Nat) (ℓ : Nat)
    (hgoal : goal.length = 5) (hguess : guess.length = 5)
    (hz : ∀ c ∈ guess, c ≠ 0) (sig : List Nat) (n : Nat)
    (hscore : Score goal guess = some (sig, n)) :
    ((guess.zip sig).countP
        fun q => q.1 == ℓ && (q.2 == LETTER_CORRECT || q.2 == LETTER_IN_WORD))
      ≤ goal.count ℓ := by
  have h1 := score_eq_specScore goal guess hgoal hguess hz
  rw [hscore] at h1
  have hsig : sig = (specScore goal guess).1.map encodeOutcome := by
    simpa using congrArg (fun o => (Option.map Prod.fst o).getD []) h1
  have hguess' : (guess.zip goal).map Prod.fst = guess :=
    List.map_fst_zip guess goal (by omega)
  have hbound := specPass2_marks_bound (guess.zip goal) (unmatchedCounts (guess.zip goal)) ℓ
  rw [hguess'] at hbound
  rw [countP_matched_add_unmatched] at hbound
  have hcount : ((guess.zip goal).countP fun p => p.2 == ℓ) = goal.count ℓ := by
    have hsnd : (guess.zip goal).map Prod.snd = goal :=
      List.map_snd_zip guess goal (by omega)
    conv_rhs => rw [← hsnd]
    rw [List.count, List.countP_map]
    rfl
  rw [hcount] at hbound
  rw [hsig]
  exact hbound

/-- Witness for C3: goal "taken", guess "tater", letter 't' (the spec's
duplicate-letter example; the repeated t earns only one mark). -/
theorem score_letter_marks_bound_witness :
    ((strBytes "tater").zip (strBytes "++#+#")).countP
        (fun q => q.1 == 116 && (q.2 == LETTER_CORRECT || q.2 == LETTER_IN_WORD))
      ≤ (strBytes "taken").count 116 :=
  score_letter_marks_bound (strBytes "taken") (strBytes "tater") 116
    (by decide) (by decide) (by decide) (strBytes "++#+#") 3 (by decide)

/-! ## Length handling of `Score` (engine.go performs no validation) -/

/-- C2 (behaviour of the code at the failing input): `Score` contains no
length check whatsoever.  A guess shorter than the goal is scored against
the zero-initialised tails of the fixed-size arrays, so the unplayed
positions compare `0 == 0` in pass 1 and are marked `Correct`: the empty
guess against goal "blind" yields signature "+++++" with correctCount 5
instead of failing with a `LengthMismatch` condition. -/
theorem score_scores_short_guess :
    Score (strBytes "blind") (strBytes "") = some (strBytes "+++++", 5) := by decide

/-! ## The spec's reversal example (§8) -/

/-- C9's counterexample: with the goal the spec literally names, "dlnib",
and the guess "dnzlb" (reverse of "blind" with middle letter replaced by z),
`Score` yields "+*#*+" with correctCount 2 (the outer d and b are exact
matches), not "**#**" with correctCount 0. -/
theorem score_reversal_claim_false :
    Score (strBytes "dlnib") (strBytes "dnzlb") = some (strBytes "+*#*+", 2) ∧
      Score (strBytes "dlnib") (strBytes "dnzlb") ≠ some (strBytes "**#**", 0) := by
  decide

/-- C9 amended: it is the goal "blind" — the word whose reversal with its
middle letter replaced by z forms the guess "dnzlb" — that yields signature
"**#**" and correctCount 0 (every letter present but displaced, centre
letter absent), exactly as the engine's own test `TestScore` exercises it. -/
theorem score_reversal_amended :
    Score (strBytes "blind") (strBytes "dnzlb") = some (strBytes "**#**", 0) := by decide

/-! ## The game engine record and `NewFixedGame` -/

/-- `GtwEngine` from engine.go: the corpus and the current goal word.  The
random number generator field plays no part in `NewFixedGame`, `Cheat` or
`Corpus` and is not modelled. -/
structure GtwEngine where
  corpus : List (List Nat)
  goal : List Nat

/-- `NewFixedGame` from engine.go: reinitialises the goal word to the
argument (which is not necessarily in the corpus) and returns `nil`
unconditionally; Go's `error` result is modelled as an `Option`, with
`none` for `nil`. -/
def NewFixedGame (e : GtwEngine) (aWord : List Nat) : GtwEngine × Option String :=
  ({ e with goal := aWord }, none)

/-- `Cheat` from engine.go: returns the engine's current goal word. -/
def Cheat (e : GtwEngine) : List Nat := e.goal

/-- `Corpus` from engine.go: returns the engine's corpus. -/
def Corpus (e : GtwEngine) : List (List Nat) := e.corpus

/-- C10: for every engine state and every word — of any length, in the
corpus or not — `NewFixedGame` returns a `nil` error, and afterwards
`Cheat` returns exactly that word while the corpus is unchanged; there is
no failure case. -/
theorem newFixedGame_never_fails (e : GtwEngine) (w : List Nat) :
    (NewFixedGame e w).2 = none ∧ Cheat (NewFixedGame e w).1 = w ∧
      Corpus (NewFixedGame e w).1 = Corpus e :=
  ⟨rfl, rfl, rfl⟩

end Gtw

/-!
## The gmobot candidate filter

Embedding of `filter` from the gmobot source.  Two revisions are present in
the repository: the later one (called `filter003` here) runs an extra
containment pass over the out-of-place letters and is called per history
record via `remaining = filter(remaining, guesses[i], scores[i])`; the
earlier one (`filter005`) stops after the regular-expression pass.  Both
build the same five per-position regex components.

The constructed pattern is always five components, each either `.`, a
negated character class over letters (plus possibly a literal `*`, see
`presentLoop`), or a single literal letter; such patterns always compile, so
the `regexp.Compile` error branch (which returns the global master list) is
unreachable and not modelled.  Go's `FindString(s) != ""` succeeds exactly
when the five components match five consecutive bytes of `s` at some offset,
which `reMatches` reproduces. -/

namespace Gmobot

open Gtw

/-- The stop list: the guess's letters at every position scored
out-of-place (`'*'`), in position order, duplicates kept. -/
def stopList (guess score : List Nat) : List Nat :=
  ((score.zip guess).filterMap fun p => if p.1 = LETTER_IN_WORD then some p.2 else none)

/-- One step of the wrong-letter loop: append the letter to each growing
component in which it does not yet occur, unless it is stopped. -/
def addIfNew (stop : List Nat) (letter : Nat) (comps : List (List Nat)) : List (List Nat) :=
  comps.map fun c => if letter ∉ c ∧ letter ∉ stop then c ++ [letter] else c

/-- The wrong-letter loop: for each position scored `'#'`, add the guessed
letter to every component (if new and not stopped).  Pairs are
(score char, guess letter) in position order. -/
def wrongLoop (stop : List Nat) : List (Nat × Nat) → List (List Nat) → List (List Nat)
  | [], comps => comps
  | (v, g) :: rest, comps =>
    wrongLoop stop rest (if v = LETTER_WRONG then addIfNew stop g comps else comps)

/-- The out-of-place loop.  NOTE: the source appends `string(r)` — the
score character `'*'` itself — to the component at that position, not the
guessed letter: `regexComponents[i] = regexComponents[i] + string(r)`. -/
def presentLoop : List Nat → List (List Nat) → List (List Nat)
  | v :: rest, c :: cs =>
    (if v = LETTER_IN_WORD then c ++ [v] else c) :: presentLoop rest cs
  | _, cs => cs

/-- A compiled per-position regex component: `.`, `[^cs]`, or a literal. -/
inductive RegexComp
  | dot
  | negClass (cs : List Nat)
  | lit (c : Nat)
  deriving DecidableEq, Repr

/-- Convert a letter collection into its component: empty becomes `.`
(match any), otherwise `[^letters]`. -/
def toComp (c : List Nat) : RegexComp :=
  if c = [] then .dot else .negClass c

/-- The correct-letter loop: a position scored `'+'` replaces its component
with the guessed letter as a literal. -/
def correctLoop : List (Nat × Nat) → List RegexComp → List RegexComp
  | (v, g) :: rest, c :: cs =>
    (if v = LETTER_CORRECT then .lit g else c) :: correctLoop rest cs
  | _, cs => cs

/-- The five regex components built by `filter` for one (guess, score)
pair, in source order: stop list, wrong-letter loop over the five initially
empty components, out-of-place loop, conversion, correct-letter loop. -/
def buildComps (guess score : List Nat) : List RegexComp :=
  let stop := stopList guess score
  let comps1 := wrongLoop stop (score.zip guess) (List.replicate 5 [])
  let comps2 := presentLoop score comps1
  correctLoop (score.zip guess) (comps2.map toComp)

/-- RE2 semantics of one component against one byte: `.` matches anything
but a newline; a negated class matches anything not listed; a literal
matches itself. -/
def compMatch : RegexComp → Nat → Bool
  | .dot, x => x ≠ 10
  | .negClass cs, x => ¬ x ∈ cs
  | .lit c, x => x = c

/-- All components match the word's bytes starting at offset `k`. -/
def matchesAt (comps : List RegexComp) (w : List Nat) (k : Nat) : Bool :=
  comps.length ≤ (w.drop k).length
    && (comps.zip (w.drop k)).all fun p => compMatch p.1 p.2

/-- `matcher.FindString(s) != ""`: the components match at some offset. -/
def reMatches (comps : List RegexComp) (w : List Nat) : Bool :=
  (List.range (w.length + 1)).any (matchesAt comps w)

/-- `findStringInSlice` from the gmobot source: index of the first
occurrence, `none` for Go's `-1`. -/
def findStringInSlice (s : List Nat) : List (List Nat) → Option Nat
  | [] => none
  | w :: rest =>
    if w = s then some 0 else (findStringInSlice s rest).map (· + 1)

/-- The guess-removal step: if the guess occurs in the result, overwrite its
first occurrence with the last element and drop the last element. -/
def removeGuess (guess : List Nat) (result : List (List Nat)) : List (List Nat) :=
  match findStringInSlice guess result with
  | none => result
  | some i => (result.set i (result.getLastD [])).dropLast

/-- The containment loop of the later revision: for each position scored
`'*'`, keep only the words containing that guessed letter.  Pairs are
(score char, guess letter) in position order. -/
def mustContainLoop : List (Nat × Nat) → List (List Nat) → List (List Nat)
  | [], result => result
  | (v, g) :: rest, result =>
    mustContainLoop rest (if v = LETTER_IN_WORD then result.filter (·.contains g) else result)

/-- `filter` from the later gmobot revision: regex pass, containment pass
for out-of-place letters, then guess removal. -/
def filter003 (words : List (List Nat)) (guess score : List Nat) : List (List Nat) :=
  let comps := buildComps guess score
  let result := words.filter (reMatches comps)
  let result := mustContainLoop (score.zip guess) result
  removeGuess guess result

/-- `filter` from the earlier gmobot revision: regex pass, then guess
removal; there is no containment pass. -/
def filter005 (words : List (List Nat)) (guess score : List Nat) : List (List Nat) :=
  let comps := buildComps guess score
  let result := words.filter (reMatches comps)
  removeGuess guess result

/-- The per-game loop of `GmoGuess`: starting from the master word list,
apply `filter` once per (guess, score) record of the history. -/
def filterCandidates (list : List (List Nat)) (history : List (List Nat × List Nat)) :
    List (List Nat) :=
  history.foldl (fun remaining r => filter003 remaining r.1 r.2) list

example :
    filter003 [strBytes "aaaaa"] (strBytes "abcde") (strBytes "*####")
      = [strBytes "aaaaa"] := by decide

example :
    filter005 [strBytes "xxxxx"] (strBytes "abcde") (strBytes "*####")
      = [strBytes "xxxxx"] := by decide

example :
    filterCandidates [strBytes "aaaaa", strBytes "aaaaa"]
        [(strBytes "aaaaa", strBytes "+++++")]
      = [strBytes "aaaaa"] := by decide

example :
    filter003 [strBytes "fghij", strBytes "bbbbb"] (strBytes "abcde") (strBytes "#####")
      = [strBytes "fghij"] := by decide

/-- Words made of lowercase ASCII letters.  Guesses are words over the game
alphabet; for such guesses the constructed pattern always compiles, so the
unmodelled `regexp.Compile` error branch of the source is dead code. -/
abbrev LettersOnly (w : List Nat) : Prop := ∀ c ∈ w, 97 ≤ c ∧ c ≤ 122

/-! ### Behaviour of the guess-removal step -/

theorem getLastD_eq_getLast_of_ne_nil (l : List (List Nat)) (d : List Nat) (h : l ≠ []) :
    l.getLastD d = l.getLast h := by
  rw [List.getLastD_eq_getLast?, List.getLast?_eq_getLast l h, Option.getD_some]

theorem findStringInSlice_eq_none (g : List Nat) (r : List (List Nat)) :
    findStringInSlice g r = none ↔ g ∉ r := by
  induction r with
  | nil => simp [findStringInSlice]
  | cons w rest ih =>
    by_cases hw : w = g
    · subst hw
      simp [findStringInSlice]
    · rw [findStringInSlice, if_neg hw, Option.map_eq_none', ih, List.mem_cons]
      push_neg
      constructor
      · intro hn
        exact ⟨fun he => hw he.symm, hn⟩
      · intro hn
        exact hn.2

theorem removeGuess_cons_ne (g w : List Nat) (rest : List (List Nat)) (h : w ≠ g) :
    removeGuess g (w :: rest) = w :: removeGuess g rest := by
  unfold removeGuess
  cases hf : findStringInSlice g rest with
  | none =>
    simp [findStringInSlice, h, hf]
  | some j =>
    have hrest : rest ≠ [] := by
      intro hr; subst hr; simp [findStringInSlice] at hf
    have hgl : (rest.getLastD w) = rest.getLastD [] := by
      rw [getLastD_eq_getLast_of_ne_nil rest w hrest,
        getLastD_eq_getLast_of_ne_nil rest [] hrest]
    have hset : rest.set j (rest.getLastD []) ≠ [] := by
      intro hc
      have := congrArg List.length hc
      simp [List.length_set] at this
      exact hrest this
    simp only [findStringInSlice, if_neg h, hf, Option.map_some']
    rw [List.getLastD_cons, List.set_cons_succ, hgl]
    cases hx : rest.set j (rest.getLastD []) with
    | nil => exact absurd hx hset
    | cons y ys => rw [List.dropLast_cons₂]

/-- Swapping the last element into the first occurrence's slot and dropping
the last element is, up to permutation, erasing the first occurrence. -/
theorem removeGuess_perm_erase (g : List Nat) (r : List (List Nat)) :
    (removeGuess g r).Perm (r.erase g) := by
  induction r with
  | nil => simp [removeGuess, findStringInSlice]
  | cons w rest ih =>
    by_cases hw : w = g
    · subst hw
      rw [List.erase_cons_head]
      cases rest with
      | nil => simp [removeGuess, findStringInSlice]
      | cons b bs =>
        unfold removeGuess
        rw [show findStringInSlice w (w :: b :: bs) = some 0 by simp [findStringInSlice]]
        show (((w :: b :: bs).set 0 ((w :: b :: bs).getLastD [])).dropLast).Perm (b :: bs)
        rw [List.getLastD_cons, List.set_cons_zero]
        have hbs : (b :: bs) ≠ [] := List.cons_ne_nil _ _
        rw [getLastD_eq_getLast_of_ne_nil (b :: bs) w hbs]
        cases hx : (b :: bs).getLast hbs :: b :: bs with
        | nil => simp at hx
        | cons y ys =>
          rw [← hx, List.dropLast_cons₂]
          conv_rhs => rw [← List.dropLast_append_getLast hbs]
          exact (List.perm_append_singleton _ _).symm
    · rw [removeGuess_cons_ne g w rest hw]
      rw [List.erase_cons_tail (by simp [hw])]
      exact ih.cons w

theorem removeGuess_subset (g : List Nat) (r : List (List Nat)) :
    ∀ x ∈ removeGuess g r, x ∈ r := fun x hx =>
  (List.erase_sublist g r).subset ((removeGuess_perm_erase g r).mem_iff.mp hx)

theorem removeGuess_count_eq_erase (g x : List Nat) (r : List (List Nat)) :
    (removeGuess g r).count x = (r.erase g).count x := by
  rw [List.count_eq_countP, List.count_eq_countP,
    (removeGuess_perm_erase g r).countP_eq]

theorem removeGuess_count_le (g x : List Nat) (r : List (List Nat)) :
    (removeGuess g r).count x ≤ r.count x := by
  rw [removeGuess_count_eq_erase]
  exact ((List.erase_sublist g r).count_le) x

theorem removeGuess_not_mem (g : List Nat) (r : List (List Nat))
    (h : r.count g ≤ 1) : g ∉ removeGuess g r := by
  rw [← List.count_eq_zero, removeGuess_count_eq_erase, List.count_erase_self]
  omega

/-! ### Subset and count facts for the filters -/

theorem mustContainLoop_sublist (ps : List (Nat × Nat)) (r : List (List Nat)) :
    (mustContainLoop ps r).Sublist r := by
  induction ps generalizing r with
  | nil => simp [mustContainLoop]
  | cons p rest ih =>
    obtain ⟨v, g⟩ := p
    by_cases hv : v = LETTER_IN_WORD
    · rw [show mustContainLoop ((v, g) :: rest) r
          = mustContainLoop rest (r.filter (·.contains g)) by
        simp [mustContainLoop, hv]]
      exact (ih _).trans (List.filter_sublist r)
    · rw [show mustContainLoop ((v, g) :: rest) r = mustContainLoop rest r by
        simp [mustContainLoop, hv]]
      exact ih r

theorem filter003_subset (words : List (List Nat)) (guess score : List Nat) :
    ∀ x ∈ filter003 words guess score, x ∈ words := by
  intro x hx
  have h1 := removeGuess_subset guess _ x hx
  have h2 := (mustContainLoop_sublist (score.zip guess) _).subset h1
  exact List.mem_of_mem_filter h2

theorem filter003_count_le (words : List (List Nat)) (guess score x : List Nat) :
    (filter003 words guess score).count x ≤ words.count x := by
  calc (filter003 words guess score).count x
      ≤ (mustContainLoop (score.zip guess)
          (words.filter (reMatches (buildComps guess score)))).count x :=
        removeGuess_count_le _ _ _
    _ ≤ (words.filter (reMatches (buildComps guess score))).count x :=
        (mustContainLoop_sublist _ _).count_le x
    _ ≤ words.count x := (List.filter_sublist words).count_le x

theorem filter003_not_mem_guess (words : List (List Nat)) (guess score : List Nat)
    (h : words.count guess ≤ 1) : guess ∉ filter003 words guess score := by
  apply removeGuess_not_mem
  calc (mustContainLoop (score.zip guess)
          (words.filter (reMatches (buildComps guess score)))).count guess
      ≤ (words.filter (reMatches (buildComps guess score))).count guess :=
        (mustContainLoop_sublist _ _).count_le guess
    _ ≤ words.count guess := (List.filter_sublist words).count_le guess
    _ ≤ 1 := h

theorem filterCandidates_subset (list : List (List Nat))
    (history : List (List Nat × List Nat)) :
    ∀ x ∈ filterCandidates list history, x ∈ list := by
  induction history generalizing list with
  | nil => intro x hx; exact hx
  | cons r rest ih =>
    intro x hx
    exact filter003_subset list r.1 r.2 x (ih (filter003 list r.1 r.2) x hx)

theorem filterCandidates_count_le (list : List (List Nat))
    (history : List (List Nat × List Nat)) (x : List Nat) :
    (filterCandidates list history).count x ≤ list.count x := by
  induction history generalizing list with
  | nil => exact Nat.le_refl _
  | cons r rest ih =>
    exact (ih (filter003 list r.1 r.2)).trans (filter003_count_le list r.1 r.2 x)

/-! ### The containment pass of the later revision -/

theorem mustContainLoop_mem_contains (ps : List (Nat × Nat)) (r : List (List Nat)) (ℓ : Nat)
    (hp : (LETTER_IN_WORD, ℓ) ∈ ps) :
    ∀ w ∈ mustContainLoop ps r, ℓ ∈ w := by
  induction ps generalizing r with
  | nil => simp at hp
  | cons p rest ih =>
    obtain ⟨v, g⟩ := p
    intro w hw
    by_cases hv : v = LETTER_IN_WORD
    · rw [show mustContainLoop ((v, g) :: rest) r
          = mustContainLoop rest (r.filter (·.contains g)) by
        simp [mustContainLoop, hv]] at hw
      rcases List.mem_cons.mp hp with heq | hmem
      · injection heq with hv2 hg
        subst hg
        have hwf := (mustContainLoop_sublist rest _).subset hw
        have hc := List.of_mem_filter hwf
        exact List.elem_iff.mp (by simpa using hc)
      · exact ih _ hmem w hw
    · rw [show mustContainLoop ((v, g) :: rest) r = mustContainLoop rest r by
        simp [mustContainLoop, hv]] at hw
      rcases List.mem_cons.mp hp with heq | hmem
      · injection heq with hv2 hg
        exact absurd hv2.symm hv
      · exact ih r hmem w hw

/-! ### The absent-letter exclusion -/

theorem addIfNew_mem (stop : List Nat) (g ℓ : Nat) (comps : List (List Nat))
    (h : ∀ c ∈ comps, ℓ ∈ c) : ∀ c ∈ addIfNew stop g comps, ℓ ∈ c := by
  intro c hc
  rcases List.mem_map.mp hc with ⟨c0, hc0, rfl⟩
  split
  · exact List.mem_append_left _ (h c0 hc0)
  · exact h c0 hc0

theorem addIfNew_self (stop : List Nat) (ℓ : Nat) (comps : List (List Nat))
    (hstop : ℓ ∉ stop) : ∀ c ∈ addIfNew stop ℓ comps, ℓ ∈ c := by
  intro c hc
  rcases List.mem_map.mp hc with ⟨c0, hc0, rfl⟩
  split
  · exact List.mem_append_right _ (List.mem_singleton.mpr rfl)
  · rename_i hcond
    by_contra hℓ
    exact hcond ⟨hℓ, hstop⟩

theorem wrongLoop_mem (stop : List Nat) (ps : List (Nat × Nat))
    (comps : List (List Nat)) (ℓ : Nat) (h : ∀ c ∈ comps, ℓ ∈ c) :
    ∀ c ∈ wrongLoop stop ps comps, ℓ ∈ c := by
  induction ps generalizing comps with
  | nil => exact h
  | cons p rest ih =>
    obtain ⟨v, g⟩ := p
    rw [wrongLoop]
    split
    · exact ih _ (addIfNew_mem stop g ℓ comps h)
    · exact ih _ h

theorem wrongLoop_establishes (stop : List Nat) (ps : List (Nat × Nat))
    (comps : List (List Nat)) (ℓ : Nat) (hstop : ℓ ∉ stop)
    (hp : (LETTER_WRONG, ℓ) ∈ ps) :
    ∀ c ∈ wrongLoop stop ps comps, ℓ ∈ c := by
  induction ps generalizing comps with
  | nil => simp at hp
  | cons p rest ih =>
    obtain ⟨v, g⟩ := p
    rcases List.mem_cons.mp hp with heq | hmem
    · injection heq with hv hg
      subst hg
      rw [wrongLoop, if_pos hv.symm]
      exact wrongLoop_mem stop rest _ ℓ (addIfNew_self stop ℓ comps hstop)
    · rw [wrongLoop]
      split
      · exact ih _ hmem
      · exact ih _ hmem

theorem presentLoop_mem (s : List Nat) (comps : List (List Nat)) (ℓ : Nat)
    (h : ∀ c ∈ comps, ℓ ∈ c) : ∀ c ∈ presentLoop s comps, ℓ ∈ c := by
  induction s generalizing comps with
  | nil =>
    intro c hc
    exact h c (by simpa [presentLoop] using hc)
  | cons v rest ih =>
    cases comps with
    | nil =>
      intro c hc
      simp [presentLoop] at hc
    | cons c0 cs =>
      intro c hc
      rw [presentLoop] at hc
      rcases List.mem_cons.mp hc with rfl | htail
      · split
        · exact List.mem_append_left _ (h c0 (List.mem_cons_self _ _))
        · exact h c0 (List.mem_cons_self _ _)
      · exact ih cs (fun d hd => h d (List.mem_cons_of_mem _ hd)) c htail

theorem toComp_reject (c : List Nat) (ℓ : Nat) (h : ℓ ∈ c) :
    compMatch (toComp c) ℓ = false := by
  have hne : c ≠ [] := by rintro rfl; simp at h
  simp [toComp, hne, compMatch, h]

theorem correctLoop_reject (ps : List (Nat × Nat)) (comps : List RegexComp) (ℓ : Nat)
    (hc : ∀ c ∈ comps, compMatch c ℓ = false)
    (hps : ∀ p ∈ ps, p.1 = LETTER_CORRECT → p.2 ≠ ℓ) :
    ∀ c ∈ correctLoop ps comps, compMatch c ℓ = false := by
  induction ps generalizing comps with
  | nil =>
    intro c hcm
    exact hc c (by simpa [correctLoop] using hcm)
  | cons p rest ih =>
    obtain ⟨v, g⟩ := p
    cases comps with
    | nil =>
      intro c hcm
      simp [correctLoop] at hcm
    | cons c0 cs =>
      intro c hcm
      rw [correctLoop] at hcm
      rcases List.mem_cons.mp hcm with rfl | htail
      · split
        · rename_i hv
          have hg : g ≠ ℓ := hps (v, g) (List.mem_cons_self _ _) hv
          have hg2 : ¬(ℓ = g) := fun he => hg he.symm
          simp [compMatch, hg2]
        · exact hc c0 (List.mem_cons_self _ _)
      · exact ih cs (fun d hd => hc d (List.mem_cons_of_mem _ hd))
          (fun p hp => hps p (List.mem_cons_of_mem _ hp)) c htail

theorem addIfNew_length (stop : List Nat) (g : Nat) (comps : List (List Nat)) :
    (addIfNew stop g comps).length = comps.length := by
  simp [addIfNew]

theorem wrongLoop_length (stop : List Nat) (ps : List (Nat × Nat))
    (comps : List (List Nat)) :
    (wrongLoop stop ps comps).length = comps.length := by
  induction ps generalizing comps with
  | nil => rfl
  | cons p rest ih =>
    obtain ⟨v, g⟩ := p
    rw [wrongLoop]
    split
    · rw [ih, addIfNew_length]
    · exact ih comps

theorem presentLoop_length (s : List Nat) (comps : List (List Nat)) :
    (presentLoop s comps).length = comps.length := by
  induction s generalizing comps with
  | nil => cases comps <;> rfl
  | cons v rest ih =>
    cases comps with
    | nil => rfl
    | cons c0 cs => rw [presentLoop, List.length_cons, List.length_cons, ih]

theorem correctLoop_length (ps : List (Nat × Nat)) (comps : List RegexComp) :
    (correctLoop ps comps).length = comps.length := by
  induction ps generalizing comps with
  | nil => cases comps <;> rfl
  | cons p rest ih =>
    obtain ⟨v, g⟩ := p
    cases comps with
    | nil => rfl
    | cons c0 cs => rw [correctLoop, List.length_cons, List.length_cons, ih]

theorem buildComps_length (guess score : List Nat) :
    (buildComps guess score).length = 5 := by
  unfold buildComps
  rw [correctLoop_length, List.length_map, presentLoop_length, wrongLoop_length,
    List.length_replicate]

/-- On a five-letter word, a match of the five components can only start at
offset zero, so every component matches the letter at its own position. -/
theorem reMatches_length5 (comps : List RegexComp) (w : List Nat)
    (hc : comps.length = 5) (hw : w.length = 5)
    (hm : reMatches comps w = true) :
    ∀ p ∈ comps.zip w, compMatch p.1 p.2 = true := by
  unfold reMatches at hm
  rcases List.any_eq_true.mp hm with ⟨k, _, hmk⟩
  unfold matchesAt at hmk
  rcases Bool.and_eq_true_iff.mp hmk with ⟨h1, h2⟩
  have h1' : comps.length ≤ (w.drop k).length := of_decide_eq_true h1
  have hdrop : (w.drop k).length = w.length - k := List.length_drop k w
  have hk0 : k = 0 := by omega
  subst hk0
  rw [List.drop_zero] at h2
  exact fun p hp => List.all_eq_true.mp h2 p hp

theorem zip_reject (comps : List RegexComp) (w : List Nat) (ℓ : Nat)
    (hlen : comps.length = w.length)
    (hall : ∀ p ∈ comps.zip w, compMatch p.1 p.2 = true)
    (hrej : ∀ c ∈ comps, compMatch c ℓ = false) : ℓ ∉ w := by
  induction comps generalizing w with
  | nil =>
    cases w with
    | nil => simp
    | cons x xs => simp at hlen
  | cons c cs ih =>
    cases w with
    | nil => simp
    | cons x xs =>
      intro hmem
      rcases List.mem_cons.mp hmem with rfl | hxs
      · have h1 := hall (c, ℓ) (by simp)
        have h2 := hrej c (by simp)
        rw [h1] at h2
        cases h2
      · exact ih xs (by simpa using hlen)
          (fun p hp => hall p (by rw [List.zip_cons_cons]; exact List.mem_cons_of_mem _ hp))
          (fun d hd => hrej d (List.mem_cons_of_mem _ hd)) hxs

theorem not_mem_stopList (guess score : List Nat) (ℓ : Nat)
    (hnever : ∀ p ∈ score.zip guess, p.2 = ℓ → p.1 ≠ LETTER_IN_WORD) :
    ℓ ∉ stopList guess score := by
  intro hmem
  unfold stopList at hmem
  rcases List.mem_filterMap.mp hmem with ⟨p, hp, hsome⟩
  by_cases h42 : p.1 = LETTER_IN_WORD
  · rw [if_pos h42] at hsome
    injection hsome with h
    exact hnever p hp h h42
  · rw [if_neg h42] at hsome
    cases hsome

/-- If some position is scored `'#'` for letter ℓ and ℓ is never scored
`'+'` or `'*'` in the same guess, then every one of the five built
components rejects ℓ: the wrong-letter loop put ℓ into every growing
collection (ℓ is not stopped), later appends keep it there, and the
correct-letter loop only installs literals different from ℓ. -/
theorem buildComps_reject (guess score : List Nat) (ℓ : Nat)
    (habs : (LETTER_WRONG, ℓ) ∈ score.zip guess)
    (hnever : ∀ p ∈ score.zip guess,
      p.2 = ℓ → p.1 ≠ LETTER_CORRECT ∧ p.1 ≠ LETTER_IN_WORD) :
    ∀ c ∈ buildComps guess score, compMatch c ℓ = false := by
  unfold buildComps
  intro c hc
  refine correctLoop_reject _ _ ℓ ?_ ?_ c hc
  · intro d hd
    rcases List.mem_map.mp hd with ⟨c0, hc0, rfl⟩
    apply toComp_reject
    refine presentLoop_mem _ _ ℓ ?_ c0 hc0
    exact wrongLoop_establishes _ _ _ ℓ
      (not_mem_stopList guess score ℓ (fun p hp hℓ => (hnever p hp hℓ).2)) habs
  · intro p hp h43 hpℓ
    exact (hnever p hp hpℓ).1 h43

/-! ### Claim theorems about the filters -/

/-- C4 (behaviour of the code at the failing input): the source appends the
score character `'*'` instead of the guessed letter to the per-position
negative class (`regexComponents[i] = regexComponents[i] + string(r)`), so a
candidate word carrying the Present-marked letter at that very position is
not excluded: with guess "abcde" and signature "*####" (position 0 Present
for the letter a), the word "aaaaa" — which has a at position 0 — survives
the filter.  The claim requires every surviving candidate to not have ℓ at
the Present position. -/
theorem filter003_keeps_present_letter_at_marked_position :
    filter003 [strBytes "aaaaa"] (strBytes "abcde") (strBytes "*####") = [strBytes "aaaaa"]
      ∧ (strBytes "*####")[0]? = some LETTER_IN_WORD
      ∧ (strBytes "abcde")[0]? = some 97
      ∧ (strBytes "aaaaa")[0]? = some 97 := by decide

/-- C5's counterexample: the earlier revision's filter has no containment
pass, so with guess "abcde" and signature "*####" (position 0 Present for
the letter a) the word "xxxxx" — which contains no a at all — survives. -/
theorem filter005_keeps_word_without_present_letter :
    filter005 [strBytes "xxxxx"] (strBytes "abcde") (strBytes "*####") = [strBytes "xxxxx"]
      ∧ (strBytes "*####")[0]? = some LETTER_IN_WORD
      ∧ (strBytes "abcde")[0]? = some 97
      ∧ 97 ∉ strBytes "xxxxx" := by decide

/-- C5 amended: for the later revision's filter (the one with the
containment pass over out-of-place letters), whenever some position is
marked Present (`'*'`) for guess letter ℓ, every word in the returned
candidate set contains ℓ at some position.  `LettersOnly` scopes the
statement to guesses over the game alphabet, for which the source's
pattern always compiles. -/
theorem filter003_present_letter_contained (words : List (List Nat))
    (guess score : List Nat) (ℓ : Nat) (hok : LettersOnly guess)
    (hp : (LETTER_IN_WORD, ℓ) ∈ score.zip guess) :
    ∀ w ∈ filter003 words guess score, ℓ ∈ w := fun w hw =>
  mustContainLoop_mem_contains (score.zip guess) _ ℓ hp w (removeGuess_subset _ _ w hw)

/-- Witness for C5's amended theorem: guess "abcde", signature "*####",
surviving word "aaaaa" contains the Present letter a. -/
theorem filter003_present_letter_contained_witness : 97 ∈ strBytes "aaaaa" :=
  filter003_present_letter_contained [strBytes "aaaaa"] (strBytes "abcde")
    (strBytes "*####") 97 (by decide) (by decide) (strBytes "aaaaa") (by decide)

/-- C6: if letter ℓ is scored Absent (`'#'`) at some position of a guess
and ℓ is scored neither Correct (`'+'`) nor Present (`'*'`) at any position
of that same guess, then every word in the candidate set returned by the
filter contains zero occurrences of ℓ.  Words are game words of length 5
(a match of the five-component pattern then covers the whole word) and the
guess is over the game alphabet. -/
theorem filter003_absent_letter_excluded (words : List (List Nat))
    (guess score : List Nat) (ℓ : Nat) (hok : LettersOnly guess)
    (hwords : ∀ w ∈ words, w.length = 5)
    (habs : (LETTER_WRONG, ℓ) ∈ score.zip guess)
    (hnever : ∀ p ∈ score.zip guess,
      p.2 = ℓ → p.1 ≠ LETTER_CORRECT ∧ p.1 ≠ LETTER_IN_WORD) :
    ∀ w ∈ filter003 words guess score, ℓ ∉ w := by
  intro w hw
  have hw1 : w ∈ words.filter (reMatches (buildComps guess score)) :=
    (mustContainLoop_sublist _ _).subset (removeGuess_subset _ _ w hw)
  have hmem : w ∈ words := List.mem_of_mem_filter hw1
  have hm : reMatches (buildComps guess score) w = true := List.of_mem_filter hw1
  have hall := reMatches_length5 _ w (buildComps_length guess score) (hwords w hmem) hm
  exact zip_reject _ w ℓ (by rw [buildComps_length, hwords w hmem]) hall
    (buildComps_reject guess score ℓ habs hnever)

/-- Witness for C6: guess "abcde" scored "#####"; the surviving word
"fghij" contains no a. -/
theorem filter003_absent_letter_excluded_witness : (97 : Nat) ∉ strBytes "fghij" :=
  filter003_absent_letter_excluded [strBytes "fghij"] (strBytes "abcde")
    (strBytes "#####") 97 (by decide) (by decide) (by decide) (by decide)
    (strBytes "fghij") (by decide)

/-- C7: for non-empty histories, extending a history by appending records
only shrinks the candidate set: every word the longer history's filter
keeps was also kept by the shorter history's filter.  Each filter step
returns a subset of its input (a regex filter, a containment filter, and
one removal), and the per-game loop folds the steps left to right. -/
theorem filterCandidates_monotone_shrink (list : List (List Nat))
    (h1 t : List (List Nat × List Nat)) (hne : h1 ≠ [])
    (hok : ∀ r ∈ h1 ++ t, LettersOnly r.1)
    (w : List Nat) (hw : w ∈ filterCandidates list (h1 ++ t)) :
    w ∈ filterCandidates list h1 := by
  rw [filterCandidates, List.foldl_append] at hw
  exact filterCandidates_subset _ t w hw

/-- Witness for C7: history [(abcde, #####)] extended by (zzzzz, #####)
still keeps fghij, which the shorter history also keeps. -/
theorem filterCandidates_monotone_shrink_witness :
    strBytes "fghij"
      ∈ filterCandidates [strBytes "fghij"] [(strBytes "abcde", strBytes "#####")] :=
  filterCandidates_monotone_shrink [strBytes "fghij"]
    [(strBytes "abcde", strBytes "#####")] [(strBytes "zzzzz", strBytes "#####")]
    (by decide) (by decide) (strBytes "fghij") (by decide)

/-- C8's counterexample: the removal step erases only the first occurrence
of the guess (`result[i] = result[len-1]; result = result[:len-1]`), so
with a master list containing the guessed word twice, one copy survives:
after guessing "aaaaa" (scored "+++++") against the list
["aaaaa", "aaaaa"], the word "aaaaa" is still a candidate. -/
theorem filterCandidates_repeats_duplicate_guess :
    strBytes "aaaaa" ∈ filterCandidates [strBytes "aaaaa", strBytes "aaaaa"]
      [(strBytes "aaaaa", strBytes "+++++")] := by decide

/-- C8 amended: each word that appears as a guess in a record of the
history is excluded from the candidate set computed from that history,
provided the master list contains at most one entry of that word (the
filter removes only the first occurrence, so of duplicate entries one copy
can remain). -/
theorem filterCandidates_excludes_guessed (words : List (List Nat))
    (history : List (List Nat × List Nat)) (g s : List Nat)
    (hok : ∀ r ∈ history, LettersOnly r.1)
    (hrec : (g, s) ∈ history) (hcount : words.count g ≤ 1) :
    g ∉ filterCandidates words history := by
  obtain ⟨pre, post, hsplit⟩ := List.append_of_mem hrec
  subst hsplit
  rw [filterCandidates, List.foldl_append, List.foldl_cons]
  intro hmem
  have hstep : g ∉ filter003 (filterCandidates words pre) g s :=
    filter003_not_mem_guess _ _ _ ((filterCandidates_count_le words pre g).trans hcount)
  exact hstep (filterCandidates_subset _ post g hmem)

/-- Witness for C8's amended theorem: with "aaaaa" occurring once in the
master list, guessing it removes it for good. -/
theorem filterCandidates_excludes_guessed_witness :
    strBytes "aaaaa" ∉ filterCandidates [strBytes "aaaaa", strBytes "fghij"]
      [(strBytes "aaaaa", strBytes "+++++")] :=
  filterCandidates_excludes_guessed [strBytes "aaaaa", strBytes "fghij"]
    [(strBytes "aaaaa", strBytes "+++++")] (strBytes "aaaaa") (strBytes "+++++")
    (by decide) (by decide) (by decide)

end Gmobot
